import Mathlib

/-!
Shallow embedding of `codebase_genius/code_analyzer.py` (the Code Structure
Graph Builder): the classes `CCGNode`, `CCGRelationship` and `CodeAnalyzer`
with its methods `analyze_file`, `get_next_node_id` and `query_ccg`.

Python strings are modelled as Lean `String`s; the analyzer's mutable state
(`ccg_nodes`, `ccg_relationships`, `node_counter`) is passed explicitly.
The dict `ccg_nodes` is modelled as an insertion-ordered association list
(`dict.get` = first entry with the key; all keys issued by
`get_next_node_id` are distinct, so this agrees with Python's dict).
The regexes `^(?:class|def)\s+(\w+)` (with `re.match` on the stripped line)
and `(\w+)\s*\(` (with `re.findall`) are modelled by direct character scans.
Character classes (`\s`, `\w`, `str.strip`, `str.lower`, `str.splitlines`)
are modelled on their ASCII behaviour, which coincides with Python's on the
ASCII inputs the specification is concerned with.

Vocabulary: the specification calls the code's `"calls"` relationship kind
`references`, its `query_ccg` method `who_references`, and its
`class` node type `type`; the embedding keeps the literal strings that the
Python code stores.
-/

namespace CCG

/-- Whitespace class used by Python's `str.strip` and the regex class `\s`
(ASCII part). -/
def isPySpace (c : Char) : Bool :=
  c = ' ' || c = '\t' || c = '\n' || c = '\r' || c = '\x0b' || c = '\x0c'

/-- Word-character class of the regex `\w` (ASCII part):
letters, digits and underscore. -/
def isWordChar (c : Char) : Bool :=
  c.isAlphanum || c = '_'

/-- Python `str.strip()` on a character list: drop whitespace from both ends. -/
def pyStripList (l : List Char) : List Char :=
  ((l.dropWhile isPySpace).reverse.dropWhile isPySpace).reverse

/-- Python `str.strip()`. -/
def pyStrip (s : String) : String := ⟨pyStripList s.data⟩

/-- Python `str.lower()` (ASCII case folding, which is Python's behaviour on
ASCII strings). -/
def pyLower (s : String) : String := ⟨s.data.map Char.toLower⟩

/-- Line-break characters recognised by Python's `str.splitlines`
(besides the two-character sequence CR LF, handled separately). -/
def isLineBreak (c : Char) : Bool :=
  c = '\n' || c = '\r' || c = '\x0b' || c = '\x0c' ||
  c = '\x1c' || c = '\x1d' || c = '\x1e' || c = '\x85' ||
  c = '\u2028' || c = '\u2029'

/-- Worker for `pySplitlines`: `acc` holds the current line, reversed. -/
def splitlinesAux : List Char → List Char → List String
  | [], acc => if acc.isEmpty then [] else [⟨acc.reverse⟩]
  | '\r' :: '\n' :: rest, acc => ⟨acc.reverse⟩ :: splitlinesAux rest []
  | c :: rest, acc =>
    if isLineBreak c then ⟨acc.reverse⟩ :: splitlinesAux rest []
    else splitlinesAux rest (c :: acc)

/-- Python `str.splitlines()`: split at line breaks; a trailing line break
does not produce a final empty line. -/
def pySplitlines (s : String) : List String := splitlinesAux s.data []

/-- Strip a literal character-list pattern from the front of a list;
`none` when the list does not start with the pattern. -/
def stripPat : List Char → List Char → Option (List Char)
  | [], cs => some cs
  | _ :: _, [] => none
  | k :: ks, c :: cs => if c = k then stripPat ks cs else none

/-- Test whether `pat` is an initial segment of `cs`. -/
def isPat (pat cs : List Char) : Bool := (stripPat pat cs).isSome

/-- Python `os.path.basename` (POSIX): the part after the last `/`. -/
def pyBasename (p : String) : String :=
  ⟨p.data.foldl (fun acc c => if c = '/' then [] else acc ++ [c]) []⟩

/-- Extension component of Python `os.path.splitext`: from the last dot of
the basename, unless all characters before that dot are leading dots. -/
def extOf (p : String) : String :=
  let b := (pyBasename p).data
  if (b.dropWhile (· = '.')).contains '.' then
    ⟨'.' :: (b.reverse.takeWhile (· ≠ '.')).reverse⟩
  else ""

/-- Worker for `pyReplaceDel`: delete every occurrence of the nonempty
pattern `p :: ps`, scanning left to right; `skip` counts pattern characters
still to be consumed after a match. -/
def replaceDelAux (pat : List Char) : List Char → Nat → List Char
  | [], _ => []
  | _ :: cs, skip + 1 => replaceDelAux pat cs skip
  | c :: cs, 0 =>
    if isPat pat (c :: cs) then replaceDelAux pat cs (pat.length - 1)
    else c :: replaceDelAux pat cs 0

/-- Python `s.replace(pat, "")`: delete all non-overlapping occurrences of
`pat`, scanning left to right. -/
def pyReplaceDel (s pat : String) : String :=
  if pat.data.isEmpty then s else ⟨replaceDelAux pat.data s.data 0⟩

/-- Match of the definition regex `^(?:class|def)\s+(\w+)` starting right
after the keyword: at least one whitespace character, then the (greedy)
group of word characters, which must be nonempty. -/
def kwTail (cs : List Char) : Option String :=
  match cs with
  | c :: _ =>
    if isPySpace c then
      let nm := (cs.dropWhile isPySpace).takeWhile isWordChar
      if nm.isEmpty then none else some ⟨nm⟩
    else none
  | [] => none

/-- Python `def_regex.match(line.strip())` together with the
classification `"class" if line.strip().startswith("class") else "function"`:
returns `(def_type, def_name)` on a match. -/
def defMatch (line : String) : Option (String × String) :=
  let s := pyStripList line.data
  match stripPat "class".data s with
  | some rest => (kwTail rest).map (fun nm => ("class", nm))
  | none =>
    match stripPat "def".data s with
    | some rest => (kwTail rest).map (fun nm => ("function", nm))
    | none => none

/-- Worker for `findCalls`, a state machine equivalent to scanning with
`re.findall(r"(\w+)\s*\(", line)`: `run` is the current candidate
identifier (reversed), `sp` records whether whitespace has been seen since
the identifier ended. -/
def findCallsAux : List Char → List Char → Bool → List String
  | [], _, _ => []
  | c :: rest, run, sp =>
    if run.isEmpty then
      if isWordChar c then findCallsAux rest [c] false
      else findCallsAux rest [] false
    else if sp then
      if c = '(' then ⟨run.reverse⟩ :: findCallsAux rest [] false
      else if isPySpace c then findCallsAux rest run true
      else if isWordChar c then findCallsAux rest [c] false
      else findCallsAux rest [] false
    else
      if isWordChar c then findCallsAux rest (c :: run) false
      else if c = '(' then ⟨run.reverse⟩ :: findCallsAux rest [] false
      else if isPySpace c then findCallsAux rest run true
      else findCallsAux rest [] false

/-- Python `call_regex.findall(line)` for `call_regex = (\w+)\s*\(`:
every maximal word-character run that is followed, after optional
whitespace, by an opening parenthesis, in scan order. -/
def findCalls (l : List Char) : List String := findCallsAux l [] false

/-- Embedding of the Python class `CCGNode` (the `attributes` dict and the
`relationships` list are never touched by the analyzer and are omitted). -/
structure CCGNode where
  node_type : String
  name : String
  file_path : String
  start_line : Nat
deriving DecidableEq

/-- Embedding of the Python class `CCGRelationship`. -/
structure CCGRelationship where
  source_id : String
  target_id : String
  rel_type : String
deriving DecidableEq

/-- One entry of the per-file `definitions` list built by `analyze_file`. -/
structure DefEntry where
  id : String
  name : String
  start_line : Nat
deriving DecidableEq

/-- Mutable state of the Python `CodeAnalyzer` object: the node dict (as an
insertion-ordered association list), the relationship list, and the id
counter. -/
structure CodeAnalyzer where
  ccg_nodes : List (String × CCGNode)
  ccg_relationships : List CCGRelationship
  node_counter : Nat
deriving DecidableEq

/-- State of a freshly constructed `CodeAnalyzer` (after `__init__`). -/
def initAnalyzer : CodeAnalyzer := ⟨[], [], 0⟩

/-- The id string `f"N{n}"` returned by `get_next_node_id` when the counter
has been incremented to `n`. -/
def nodeIdStr (n : Nat) : String := "N" ++ Nat.repr n

/-- Embedding of `CodeAnalyzer.get_next_node_id`: increment the counter and
return the id string built from it, together with the new counter. -/
def get_next_node_id (c : Nat) : String × Nat := (nodeIdStr (c + 1), c + 1)

/-- First pass of `analyze_file` over the lines (0-based index `i`, current
counter `c`): returns the definition node entries, their `contains`
relationships, the `definitions` list, and the final counter. -/
def defsPass (fp mid : String) :
    List String → Nat → Nat →
    List (String × CCGNode) × List CCGRelationship × List DefEntry × Nat
  | [], _, c => ([], [], [], c)
  | line :: rest, i, c =>
    match defMatch line with
    | some tn =>
      let did := nodeIdStr (c + 1)
      let r := defsPass fp mid rest (i + 1) (c + 1)
      ((did, ⟨tn.1, tn.2, fp, i + 1⟩) :: r.1,
       ⟨mid, did, "contains"⟩ :: r.2.1,
       ⟨did, tn.2, i + 1⟩ :: r.2.2.1,
       r.2.2.2)
    | none => defsPass fp mid rest (i + 1) c

/-- The containment lookup of `analyze_file`: scan the `definitions` list
in reverse and return the first (id, name) whose `start_line <= line_num`;
fall back to the module's (id, name). -/
def findOwner (mid mname : String) (ds : List DefEntry) (ln : Nat) :
    String × String :=
  match ds.reverse.find? (fun d => decide (d.start_line ≤ ln)) with
  | some d => (d.id, d.name)
  | none => (mid, mname)

/-- The Python stop list `["def", "class", ..., "self"]` (the literal list
in `analyze_file` minus its first element `current_def_name`). -/
def keywordStop : List String :=
  ["def", "class", "return", "if", "for", "while", "with", "try",
   "except", "print", "self"]

/-- Candidate call names of one line that survive the filter
`call_name not in [current_def_name, "def", ..., "self"]`. -/
def lineCalls (cname : String) (line : String) : List String :=
  (findCalls line.data).filter (fun nm => !(nm == cname || keywordStop.contains nm))

/-- Second pass of `analyze_file`: for each line, attribute the surviving
call candidates to the enclosing definition (or the module) and emit
`calls` relationships. -/
def callsPass (mid mname : String) (ds : List DefEntry) :
    List String → Nat → List CCGRelationship
  | [], _ => []
  | line :: rest, i =>
    let ow := findOwner mid mname ds (i + 1)
    ((lineCalls ow.2 line).map fun nm => ⟨ow.1, nm, "calls"⟩) ++
      callsPass mid mname ds rest (i + 1)

/-- Embedding of `CodeAnalyzer.analyze_file`.  The parser registry built by
`_load_languages` has exactly the key `".py"`, so any other extension
returns the state unchanged.  Otherwise: one module node (id from the
counter, name = basename with every occurrence of the extension removed by
`str.replace`), one node and one `contains` relationship per definition
line, then the per-line `calls` relationships. -/
def analyze_file (a : CodeAnalyzer) (file_path file_content repo_id : String) :
    CodeAnalyzer :=
  let ext := extOf file_path
  if ext = ".py" then
    let module_name := pyReplaceDel (pyBasename file_path) ext
    let mid := (get_next_node_id a.node_counter).1
    let lines := pySplitlines file_content
    let r := defsPass file_path mid lines 0 (get_next_node_id a.node_counter).2
    { ccg_nodes := a.ccg_nodes ++ (mid, ⟨"module", module_name, file_path, 1⟩) :: r.1,
      ccg_relationships :=
        a.ccg_relationships ++ r.2.1 ++ callsPass mid module_name r.2.2.1 lines 0,
      node_counter := r.2.2.2 }
  else a

/-- Python `self.ccg_nodes.get(node_id)` on the association-list model. -/
def lookupNode (nodes : List (String × CCGNode)) (i : String) : Option CCGNode :=
  (nodes.find? (fun p => p.1 == i)).map (·.2)

/-- Loop body of `query_ccg` for one relationship: emit the resolved
result when the relationship is a `calls` edge whose lowercased target
equals `target_name` and its source id is in the node dict. -/
def queryStep (nodes : List (String × CCGNode)) (target_name : String)
    (rel : CCGRelationship) : Option CCGRelationship :=
  if rel.rel_type == "calls" && pyLower rel.target_id == target_name then
    match lookupNode nodes rel.source_id with
    | some n => some ⟨n.name, rel.target_id, rel.rel_type⟩
    | none => none
  else none

/-- Embedding of `CodeAnalyzer.query_ccg`: keep the `calls` relationships
whose target matches the stripped, lowercased query, replacing the source
id by the source node's name; relationships whose source id is absent from
the node dict are dropped. -/
def query_ccg (a : CodeAnalyzer) (query : String) : List CCGRelationship :=
  let target_name := pyLower (pyStrip query)
  a.ccg_relationships.filterMap (queryStep a.ccg_nodes target_name)

/-- Match condition of `query_ccg` for query `q` on one relationship. -/
def matchesQuery (q : String) (r : CCGRelationship) : Bool :=
  r.rel_type == "calls" && pyLower r.target_id == pyLower (pyStrip q)

/-- Issue `k` identifiers in sequence through `get_next_node_id`, starting
from counter `c`: returns the issued ids and the final counter. -/
def issueIds : Nat → Nat → List String × Nat
  | c, 0 => ([], c)
  | c, k + 1 =>
    let p := get_next_node_id c
    let r := issueIds p.2 k
    (p.1 :: r.1, r.2)

/-- Analyzer whose store is empty and whose identifier counter starts at
`c` (the Identifier Allocator reset corresponds to `c = 0`). -/
def analyzerFrom (c : Nat) : CodeAnalyzer := ⟨[], [], c⟩

/-- Run the builder over an ordered `(path, text)` input sequence starting
from an empty store with identifier counter `c`. -/
def buildGraphFrom (c : Nat) (inputs : List (String × String)) : CodeAnalyzer :=
  inputs.foldl (fun a pt => analyze_file a pt.1 pt.2 "repo") (analyzerFrom c)

/-- Run the builder from a freshly reset analyzer. -/
def buildGraph (inputs : List (String × String)) : CodeAnalyzer :=
  buildGraphFrom 0 inputs

/-- Display form of a relationship endpoint: the node's name when the
endpoint is a node id of the store, the literal string otherwise. -/
def displayName (nodes : List (String × CCGNode)) (i : String) : String :=
  match lookupNode nodes i with
  | some n => n.name
  | none => i

/-- Relationship set of a store rendered by name:
`(source name, target name, kind)` per relationship, in store order.
A `contains` target is a node id and is resolved; a `calls` target is
already a symbolic name. -/
def resolvedTriples (a : CodeAnalyzer) : List (String × String × String) :=
  a.ccg_relationships.map fun r =>
    (displayName a.ccg_nodes r.source_id,
     if r.rel_type = "contains" then displayName a.ccg_nodes r.target_id
     else r.target_id,
     r.rel_type)

/-- Identifier-free rendering of the Definition Scanner: the `(name,
start_line)` pairs of the definition lines, in file order. -/
def nameDefs : List String → Nat → List (String × Nat)
  | [], _ => []
  | line :: rest, i =>
    match defMatch line with
    | some tn => (tn.2, i + 1) :: nameDefs rest (i + 1)
    | none => nameDefs rest (i + 1)

/-- Identifier-free rendering of the containment lookup. -/
def findOwnerName (mname : String) (ds : List (String × Nat)) (ln : Nat) : String :=
  match ds.reverse.find? (fun d => decide (d.2 ≤ ln)) with
  | some d => d.1
  | none => mname

/-- Identifier-free rendering of the Reference Scanner: `(owner name,
candidate name)` pairs in emission order. -/
def nameCalls (mname : String) (ds : List (String × Nat)) :
    List String → Nat → List (String × String)
  | [], _ => []
  | line :: rest, i =>
    let ow := findOwnerName mname ds (i + 1)
    ((lineCalls ow line).map fun nm => (ow, nm)) ++ nameCalls mname ds rest (i + 1)

/-- Identifier-free relationship triples contributed by one input file:
the by-name rendering of everything `analyze_file` appends for it. -/
def fileTriples (fp content : String) : List (String × String × String) :=
  if extOf fp = ".py" then
    let mname := pyReplaceDel (pyBasename fp) (extOf fp)
    let lines := pySplitlines content
    let ds := nameDefs lines 0
    (ds.map fun d => (mname, d.1, "contains")) ++
      ((nameCalls mname ds lines 0).map fun p => (p.1, p.2, "calls"))
  else []

/-- Ids `nodeIdStr (s+1), ..., nodeIdStr (s+k)`, in issue order. -/
def idsFrom (s : Nat) : Nat → List String
  | 0 => []
  | k + 1 => nodeIdStr (s + 1) :: idsFrom (s + 1) k

/-- Relation between a stored node entry and its `definitions` entry. -/
def NodeDefRel (fp : String) (p : String × CCGNode) (d : DefEntry) : Prop :=
  p.1 = d.id ∧ p.2.name = d.name ∧ p.2.file_path = fp ∧
  p.2.start_line = d.start_line ∧
  (p.2.node_type = "class" ∨ p.2.node_type = "function")

/-- Invariant of every analyzer state reachable from an empty store with
initial counter `c0`: the node keys are exactly the ids issued since `c0`,
in order, and every relationship's resolved endpoints are present keys. -/
def goodState (c0 : Nat) (a : CodeAnalyzer) : Prop :=
  c0 ≤ a.node_counter ∧
  a.ccg_nodes.map Prod.fst = idsFrom c0 (a.node_counter - c0) ∧
  ∀ r ∈ a.ccg_relationships,
    (lookupNode a.ccg_nodes r.source_id).isSome = true ∧
    (r.rel_type = "contains" →
      (lookupNode a.ccg_nodes r.target_id).isSome = true)

/-! Injectivity of the id scheme `f"N{n}"`: `Nat.repr` is injective, hence
so is `nodeIdStr`. -/

theorem digitChar_inj_fin :
    ∀ a b : Fin 10, Nat.digitChar a.val = Nat.digitChar b.val → a = b := by
  decide

theorem digitChar_inj {a b : Nat} (ha : a < 10) (hb : b < 10)
    (h : Nat.digitChar a = Nat.digitChar b) : a = b := by
  have := digitChar_inj_fin ⟨a, ha⟩ ⟨b, hb⟩ h
  exact congrArg Fin.val this

theorem map_digitChar_inj :
    ∀ l1 l2 : List Nat, (∀ d ∈ l1, d < 10) → (∀ d ∈ l2, d < 10) →
      l1.map Nat.digitChar = l2.map Nat.digitChar → l1 = l2 := by
  intro l1
  induction l1 with
  | nil => intro l2 _ _ h; cases l2 <;> simp_all
  | cons a l ih =>
    intro l2 h1 h2 h
    cases l2 with
    | nil => simp_all
    | cons b l' =>
      simp only [List.map_cons, List.cons.injEq] at h
      have hab : a = b :=
        digitChar_inj (h1 a (by simp)) (h2 b (by simp)) h.1
      have := ih l' (fun d hd => h1 d (by simp [hd]))
        (fun d hd => h2 d (by simp [hd])) h.2
      simp [hab, this]

theorem toDigitsCore_eq (n : Nat) : ∀ (fuel : Nat) (ds : List Char), n < fuel →
    Nat.toDigitsCore 10 fuel n ds =
      (if n = 0 then ['0']
       else ((Nat.digits 10 n).map Nat.digitChar).reverse) ++ ds := by
  induction n using Nat.strong_induction_on with
  | _ n ih =>
    intro fuel ds hfuel
    match fuel with
    | 0 => omega
    | fuel + 1 =>
      by_cases hz : n / 10 = 0
      · have hn10 : n < 10 := by omega
        by_cases hn0 : n = 0
        · subst hn0
          simp [Nat.toDigitsCore, Nat.digitChar]
        · have hdig : Nat.digits 10 n = [n] := by
            rw [Nat.digits_def' (by norm_num : (1 : ℕ) < 10)
              (Nat.pos_of_ne_zero hn0), hz]
            simp [Nat.mod_eq_of_lt hn10]
          simp [Nat.toDigitsCore, hz, hn0, hdig, Nat.mod_eq_of_lt hn10]
      · have hn0 : n ≠ 0 := by omega
        have hlt : n / 10 < n := Nat.div_lt_self (Nat.pos_of_ne_zero hn0) (by norm_num)
        have hrec := ih (n / 10) hlt fuel (Nat.digitChar (n % 10) :: ds) (by omega)
        have hdig : Nat.digits 10 n = n % 10 :: Nat.digits 10 (n / 10) :=
          Nat.digits_def' (by norm_num : (1 : ℕ) < 10) (Nat.pos_of_ne_zero hn0)
        simp only [Nat.toDigitsCore, hz, if_false]
        rw [hrec, hdig]
        simp [hz, hn0]

theorem repr_injective : Function.Injective Nat.repr := by
  intro m n h
  have h' : Nat.toDigits 10 m = Nat.toDigits 10 n := by
    have := congrArg String.data h
    simpa [Nat.repr, List.asString] using this
  unfold Nat.toDigits at h'
  rw [toDigitsCore_eq m (m + 1) [] (Nat.lt_succ_self m),
    toDigitsCore_eq n (n + 1) [] (Nat.lt_succ_self n),
    List.append_nil, List.append_nil] at h'
  have hm10 : ∀ d ∈ Nat.digits 10 m, d < 10 :=
    fun d hd => Nat.digits_lt_base (by norm_num) hd
  have hn10 : ∀ d ∈ Nat.digits 10 n, d < 10 :=
    fun d hd => Nat.digits_lt_base (by norm_num) hd
  by_cases hm : m = 0 <;> by_cases hn : n = 0
  · omega
  · exfalso
    rw [if_pos hm, if_neg hn] at h'
    have h'' : ['0'].reverse = (Nat.digits 10 n).map Nat.digitChar := by
      have := congrArg List.reverse h'
      simpa using this
    simp only [List.reverse_singleton] at h''
    have : ([0] : List Nat) = Nat.digits 10 n :=
      map_digitChar_inj [0] _ (by simp) hn10 (by simpa [Nat.digitChar] using h'')
    have := congrArg (Nat.ofDigits 10) this
    rw [Nat.ofDigits_digits] at this
    simp [Nat.ofDigits] at this
    omega
  · exfalso
    rw [if_neg hm, if_pos hn] at h'
    have h'' : (Nat.digits 10 m).map Nat.digitChar = ['0'].reverse := by
      have := congrArg List.reverse h'
      simpa using this
    simp only [List.reverse_singleton] at h''
    have : Nat.digits 10 m = ([0] : List Nat) :=
      map_digitChar_inj _ [0] hm10 (by simp) (by simpa [Nat.digitChar] using h'')
    have := congrArg (Nat.ofDigits 10) this
    rw [Nat.ofDigits_digits] at this
    simp [Nat.ofDigits] at this
    omega
  · rw [if_neg hm, if_neg hn] at h'
    have h'' := congrArg List.reverse h'
    simp only [List.reverse_reverse] at h''
    have hd : Nat.digits 10 m = Nat.digits 10 n :=
      map_digitChar_inj _ _ hm10 hn10 h''
    have := congrArg (Nat.ofDigits 10) hd
    rwa [Nat.ofDigits_digits, Nat.ofDigits_digits] at this

theorem nodeIdStr_injective : Function.Injective nodeIdStr := by
  intro m n h
  apply repr_injective
  have := congrArg String.data h
  simp only [nodeIdStr, String.data_append] at this
  apply String.ext
  exact List.cons_injective this

/-! Association-list lookup lemmas for the node dict. -/

theorem lookupNode_cons (k : String) (v : CCGNode)
    (xs : List (String × CCGNode)) (i : String) :
    lookupNode ((k, v) :: xs) i = if k = i then some v else lookupNode xs i := by
  by_cases h : k = i
  · rw [if_pos h, lookupNode, List.find?_cons_of_pos _ (by simp [h])]
    rfl
  · rw [if_neg h, lookupNode, List.find?_cons_of_neg _ (by simp [h])]
    rfl

theorem lookupNode_isSome_iff (xs : List (String × CCGNode)) (i : String) :
    (lookupNode xs i).isSome = true ↔ i ∈ xs.map Prod.fst := by
  induction xs with
  | nil => simp [lookupNode]
  | cons p xs ih =>
    obtain ⟨k, v⟩ := p
    rw [lookupNode_cons, List.map_cons, List.mem_cons]
    by_cases h : k = i
    · simp [h]
    · have h' : ¬i = k := fun hh => h hh.symm
      simp [h, h', ih]

theorem lookupNode_append_left {xs : List (String × CCGNode)} {i : String}
    (h : i ∈ xs.map Prod.fst) (ys : List (String × CCGNode)) :
    lookupNode (xs ++ ys) i = lookupNode xs i := by
  induction xs with
  | nil => simp at h
  | cons p xs ih =>
    obtain ⟨k, v⟩ := p
    rw [List.cons_append, lookupNode_cons, lookupNode_cons]
    by_cases hk : k = i
    · simp [hk]
    · rw [if_neg hk, if_neg hk]
      apply ih
      rcases List.mem_cons.mp h with heq | htl
      · exact absurd heq.symm hk
      · exact htl

theorem lookupNode_append_right {xs : List (String × CCGNode)} {i : String}
    (h : i ∉ xs.map Prod.fst) (ys : List (String × CCGNode)) :
    lookupNode (xs ++ ys) i = lookupNode ys i := by
  induction xs with
  | nil => simp
  | cons p xs ih =>
    obtain ⟨k, v⟩ := p
    rw [List.cons_append, lookupNode_cons]
    rw [List.map_cons] at h
    have h1 : ¬k = i := fun hh => h (hh ▸ List.mem_cons_self _ _)
    rw [if_neg h1]
    exact ih (fun hm => h (List.mem_cons_of_mem _ hm))

theorem lookupNode_of_mem_nodup {xs : List (String × CCGNode)}
    (h : (xs.map Prod.fst).Nodup) {k : String} {v : CCGNode}
    (hm : (k, v) ∈ xs) : lookupNode xs k = some v := by
  induction xs with
  | nil => simp at hm
  | cons p xs ih =>
    obtain ⟨k', v'⟩ := p
    rw [lookupNode_cons]
    simp only [List.map_cons, List.nodup_cons] at h
    rcases List.mem_cons.mp hm with heq | htl
    · obtain ⟨rfl, rfl⟩ := Prod.mk.injEq .. ▸ heq
      simp_all
    · have hk : k' ≠ k := by
        rintro rfl
        exact h.1 (by simpa using List.mem_map_of_mem Prod.fst htl)
      rw [if_neg hk]
      exact ih h.2 htl

/-! The block of ids issued between two counter values. -/

theorem idsFrom_length (s k : Nat) : (idsFrom s k).length = k := by
  induction k generalizing s with
  | zero => rfl
  | succ k ih => simp [idsFrom, ih]

theorem idsFrom_append (s a b : Nat) :
    idsFrom s (a + b) = idsFrom s a ++ idsFrom (s + a) b := by
  induction a generalizing s with
  | zero => simp [idsFrom]
  | succ a ih =>
    have : s + (a + 1) = (s + 1) + a := by omega
    rw [show a + 1 + b = (a + b) + 1 by omega]
    simp only [idsFrom, ih (s + 1), this, List.cons_append]

theorem mem_idsFrom {x : String} {s k : Nat} :
    x ∈ idsFrom s k ↔ ∃ m, s < m ∧ m ≤ s + k ∧ x = nodeIdStr m := by
  induction k generalizing s with
  | zero => simp [idsFrom]; omega
  | succ k ih =>
    simp only [idsFrom, List.mem_cons, ih]
    constructor
    · rintro (rfl | ⟨m, h1, h2, rfl⟩)
      · exact ⟨s + 1, by omega, by omega, rfl⟩
      · exact ⟨m, by omega, by omega, rfl⟩
    · rintro ⟨m, h1, h2, rfl⟩
      by_cases hm : m = s + 1
      · subst hm; exact Or.inl rfl
      · exact Or.inr ⟨m, by omega, by omega, rfl⟩

theorem idsFrom_nodup (s k : Nat) : (idsFrom s k).Nodup := by
  induction k generalizing s with
  | zero => simp [idsFrom]
  | succ k ih =>
    simp only [idsFrom, List.nodup_cons]
    refine ⟨fun hmem => ?_, ih (s + 1)⟩
    obtain ⟨m, h1, _, heq⟩ := mem_idsFrom.mp hmem
    have := nodeIdStr_injective heq
    omega

/-! `List.Forall₂` helpers. -/

theorem fa2_mem_right {α β : Type} {R : α → β → Prop} :
    ∀ {xs : List α} {ys : List β}, List.Forall₂ R xs ys →
      ∀ y ∈ ys, ∃ x ∈ xs, R x y := by
  intro xs ys h
  induction h with
  | nil => simp
  | cons hR _ ih =>
    intro y hy
    rcases List.mem_cons.mp hy with rfl | hy'
    · exact ⟨_, by simp, hR⟩
    · obtain ⟨x, hx, hxy⟩ := ih y hy'
      exact ⟨x, by simp [hx], hxy⟩

theorem fa2_map_eq {α β γ : Type} {R : α → β → Prop}
    {f : α → γ} {g : β → γ} :
    ∀ {xs : List α} {ys : List β}, List.Forall₂ R xs ys →
      (∀ x y, R x y → f x = g y) → xs.map f = ys.map g := by
  intro xs ys h hfg
  induction h with
  | nil => rfl
  | cons hR _ ih => simp [hfg _ _ hR, ih]

theorem fa2_mem_left {α β : Type} {R : α → β → Prop} :
    ∀ {xs : List α} {ys : List β}, List.Forall₂ R xs ys →
      ∀ x ∈ xs, ∃ y ∈ ys, R x y := by
  intro xs ys h
  induction h with
  | nil => simp
  | cons hR _ ih =>
    intro x hx
    rcases List.mem_cons.mp hx with rfl | hx'
    · exact ⟨_, by simp, hR⟩
    · obtain ⟨y, hy, hxy⟩ := ih x hx'
      exact ⟨y, by simp [hy], hxy⟩

/-! Structure of the first pass (`defsPass`). -/

theorem defMatch_type {line ty nm : String} (h : defMatch line = some (ty, nm)) :
    ty = "class" ∨ ty = "function" := by
  simp only [defMatch] at h
  rcases hc : stripPat "class".data (pyStripList line.data) with _ | rest
  · rw [hc] at h
    rcases hd : stripPat "def".data (pyStripList line.data) with _ | rest2
    · rw [hd] at h
      exact absurd h (by simp)
    · rw [hd] at h
      obtain ⟨x, _, heq⟩ := Option.map_eq_some'.mp h
      exact Or.inr (congrArg Prod.fst heq).symm
  · rw [hc] at h
    obtain ⟨x, _, heq⟩ := Option.map_eq_some'.mp h
    exact Or.inl (congrArg Prod.fst heq).symm

theorem defsPass_counter (fp mid : String) :
    ∀ (lines : List String) (i c : Nat),
      (defsPass fp mid lines i c).2.2.2 =
        c + (defsPass fp mid lines i c).2.2.1.length := by
  intro lines
  induction lines with
  | nil => intro i c; simp [defsPass]
  | cons line rest ih =>
    intro i c
    rcases hdm : defMatch line with _ | tn <;>
      simp only [defsPass, hdm] <;> simp [ih]
    omega

theorem defsPass_node_keys (fp mid : String) :
    ∀ (lines : List String) (i c : Nat),
      (defsPass fp mid lines i c).1.map Prod.fst =
        idsFrom c (defsPass fp mid lines i c).2.2.1.length := by
  intro lines
  induction lines with
  | nil => intro i c; simp [defsPass, idsFrom]
  | cons line rest ih =>
    intro i c
    rcases hdm : defMatch line with _ | tn <;>
      simp only [defsPass, hdm]
    · exact ih (i + 1) c
    · simp [idsFrom, ih]

theorem defsPass_def_ids (fp mid : String) :
    ∀ (lines : List String) (i c : Nat),
      (defsPass fp mid lines i c).2.2.1.map DefEntry.id =
        idsFrom c (defsPass fp mid lines i c).2.2.1.length := by
  intro lines
  induction lines with
  | nil => intro i c; simp [defsPass, idsFrom]
  | cons line rest ih =>
    intro i c
    rcases hdm : defMatch line with _ | tn <;>
      simp only [defsPass, hdm]
    · exact ih (i + 1) c
    · simp [idsFrom, ih]

theorem defsPass_contains (fp mid : String) :
    ∀ (lines : List String) (i c : Nat),
      (defsPass fp mid lines i c).2.1 =
        (defsPass fp mid lines i c).2.2.1.map
          (fun d => CCGRelationship.mk mid d.id "contains") := by
  intro lines
  induction lines with
  | nil => intro i c; simp [defsPass]
  | cons line rest ih =>
    intro i c
    rcases hdm : defMatch line with _ | tn <;>
      simp only [defsPass, hdm]
    · exact ih (i + 1) c
    · simp [ih]

theorem defsPass_nodes_rel (fp mid : String) :
    ∀ (lines : List String) (i c : Nat),
      List.Forall₂ (NodeDefRel fp)
        (defsPass fp mid lines i c).1 (defsPass fp mid lines i c).2.2.1 := by
  intro lines
  induction lines with
  | nil => intro i c; simp [defsPass]
  | cons line rest ih =>
    intro i c
    rcases hdm : defMatch line with _ | tn <;>
      simp only [defsPass, hdm]
    · exact ih (i + 1) c
    · refine List.Forall₂.cons ?_ (ih (i + 1) (c + 1))
      refine ⟨rfl, rfl, rfl, rfl, ?_⟩
      exact defMatch_type (show defMatch line = some (tn.1, tn.2) by simpa using hdm)

theorem defsPass_name_proj (fp mid : String) :
    ∀ (lines : List String) (i c : Nat),
      (defsPass fp mid lines i c).2.2.1.map (fun d => (d.name, d.start_line)) =
        nameDefs lines i := by
  intro lines
  induction lines with
  | nil => intro i c; simp [defsPass, nameDefs]
  | cons line rest ih =>
    intro i c
    rcases hdm : defMatch line with _ | tn <;>
      simp only [defsPass, nameDefs, hdm]
    · exact ih (i + 1) c
    · simp [ih]

theorem defsPass_length (fp mid : String) :
    ∀ (lines : List String) (i c : Nat),
      (defsPass fp mid lines i c).2.2.1.length =
        (lines.filter (fun l => (defMatch l).isSome)).length := by
  intro lines
  induction lines with
  | nil => intro i c; simp [defsPass]
  | cons line rest ih =>
    intro i c
    rcases hdm : defMatch line with _ | tn <;>
      simp only [defsPass, hdm, List.filter] <;> simp [hdm, ih]

/-! Behaviour of the containment lookup (`findOwner`). -/

theorem find?_eq_head?_filter {α : Type} (p : α → Bool) :
    ∀ l : List α, l.find? p = (l.filter p).head? := by
  intro l
  induction l with
  | nil => rfl
  | cons a l ih =>
    by_cases h : p a
    · rw [List.find?_cons_of_pos _ h, List.filter_cons_of_pos h]
      rfl
    · rw [List.find?_cons_of_neg _ (by simpa using h),
        List.filter_cons_of_neg (by simpa using h)]
      exact ih

theorem find?_reverse_eq_getLast?_filter {α : Type} (p : α → Bool) (l : List α) :
    l.reverse.find? p = (l.filter p).getLast? := by
  rw [find?_eq_head?_filter, List.filter_reverse, List.head?_reverse]

theorem find?_map_list {α β : Type} (f : α → β) (p : β → Bool) :
    ∀ l : List α, (l.map f).find? p = ((l.find? (fun x => p (f x))).map f) := by
  intro l
  induction l with
  | nil => rfl
  | cons a l ih =>
    rw [List.map_cons]
    by_cases h : p (f a)
    · rw [List.find?_cons_of_pos _ h, List.find?_cons_of_pos _ (by simpa using h)]
      rfl
    · rw [List.find?_cons_of_neg _ (by simpa using h),
        List.find?_cons_of_neg _ (by simpa using h)]
      exact ih

theorem findOwner_cases (mid mname : String) (ds : List DefEntry) (ln : Nat) :
    findOwner mid mname ds ln = (mid, mname) ∨
      ∃ d ∈ ds, findOwner mid mname ds ln = (d.id, d.name) := by
  rcases h : ds.reverse.find? (fun d => decide (d.start_line ≤ ln)) with _ | d
  · left
    simp [findOwner, h]
  · right
    exact ⟨d, List.mem_reverse.mp (List.mem_of_find?_eq_some h),
      by simp [findOwner, h]⟩

theorem findOwner_name_proj (mid mname : String) (ds : List DefEntry)
    (dsN : List (String × Nat)) (ln : Nat)
    (hproj : ds.map (fun d => (d.name, d.start_line)) = dsN) :
    (findOwner mid mname ds ln).2 = findOwnerName mname dsN ln := by
  subst hproj
  unfold findOwner findOwnerName
  rw [← List.map_reverse, find?_map_list]
  rcases h : ds.reverse.find? (fun d => decide (d.start_line ≤ ln)) with _ | d <;>
    simp [h]

/-! Behaviour of the second pass (`callsPass`). -/

theorem lineCalls_mem {cname line nm : String} (h : nm ∈ lineCalls cname line) :
    nm ≠ cname ∧ keywordStop.contains nm = false := by
  have hp := (List.mem_filter.mp h).2
  have hor : (nm == cname || keywordStop.contains nm) = false := by
    simpa using hp
  obtain ⟨h1, h2⟩ := Bool.or_eq_false_iff.mp hor
  exact ⟨by simpa using h1, h2⟩

theorem callsPass_mem (mid mname : String) (ds : List DefEntry) :
    ∀ (lines : List String) (i : Nat) (r : CCGRelationship),
      r ∈ callsPass mid mname ds lines i →
        r.rel_type = "calls" ∧
        ∃ ln, r.source_id = (findOwner mid mname ds ln).1 ∧
          r.target_id ≠ (findOwner mid mname ds ln).2 ∧
          keywordStop.contains r.target_id = false := by
  intro lines
  induction lines with
  | nil => intro i r h; simp [callsPass] at h
  | cons line rest ih =>
    intro i r h
    rw [callsPass, List.mem_append] at h
    rcases h with h | h
    · obtain ⟨nm, hnm, rfl⟩ := List.mem_map.mp h
      obtain ⟨hne, hstop⟩ := lineCalls_mem hnm
      exact ⟨rfl, i + 1, rfl, hne, hstop⟩
    · exact ih (i + 1) r h

theorem callsPass_resolved (nodesF : List (String × CCGNode)) (mid mname : String)
    (ds : List DefEntry) (dsN : List (String × Nat))
    (hproj : ds.map (fun d => (d.name, d.start_line)) = dsN)
    (hmid : displayName nodesF mid = mname)
    (hds : ∀ d ∈ ds, displayName nodesF d.id = d.name) :
    ∀ (lines : List String) (i : Nat),
      (callsPass mid mname ds lines i).map
        (fun r => (displayName nodesF r.source_id,
          if r.rel_type = "contains" then displayName nodesF r.target_id
          else r.target_id, r.rel_type)) =
      (nameCalls mname dsN lines i).map (fun p => (p.1, p.2, ("calls" : String))) := by
  intro lines
  induction lines with
  | nil => intro i; simp [callsPass, nameCalls]
  | cons line rest ih =>
    intro i
    have how2 : (findOwner mid mname ds (i + 1)).2 = findOwnerName mname dsN (i + 1) :=
      findOwner_name_proj mid mname ds dsN (i + 1) hproj
    have how1 : displayName nodesF (findOwner mid mname ds (i + 1)).1 =
        (findOwner mid mname ds (i + 1)).2 := by
      rcases findOwner_cases mid mname ds (i + 1) with hcase | ⟨d, hd, hcase⟩
      · rw [hcase]
        exact hmid
      · rw [hcase]
        exact hds d hd
    simp only [callsPass, nameCalls, List.map_append, List.map_map]
    rw [ih (i + 1)]
    congr 1
    rw [← how2]
    apply List.map_congr_left
    intro nm _
    simp [Function.comp, how1]

/-- State reached by `analyze_file` on a supported file, with module id,
module node, and the two passes spelled out. -/
theorem analyze_file_eq (a : CodeAnalyzer) (fp content rid : String)
    (h : extOf fp = ".py") :
    analyze_file a fp content rid =
      { ccg_nodes := a.ccg_nodes ++
          (nodeIdStr (a.node_counter + 1),
           ⟨"module", pyReplaceDel (pyBasename fp) ".py", fp, 1⟩) ::
          (defsPass fp (nodeIdStr (a.node_counter + 1)) (pySplitlines content) 0
            (a.node_counter + 1)).1,
        ccg_relationships := a.ccg_relationships ++
          (defsPass fp (nodeIdStr (a.node_counter + 1)) (pySplitlines content) 0
            (a.node_counter + 1)).2.1 ++
          callsPass (nodeIdStr (a.node_counter + 1))
            (pyReplaceDel (pyBasename fp) ".py")
            (defsPass fp (nodeIdStr (a.node_counter + 1)) (pySplitlines content) 0
              (a.node_counter + 1)).2.2.1 (pySplitlines content) 0,
        node_counter :=
          (defsPass fp (nodeIdStr (a.node_counter + 1)) (pySplitlines content) 0
            (a.node_counter + 1)).2.2.2 } := by
  simp [analyze_file, h, get_next_node_id]

theorem goodState_init (c0 : Nat) : goodState c0 (analyzerFrom c0) := by
  refine ⟨Nat.le_refl c0, ?_, ?_⟩
  · simp [analyzerFrom, idsFrom]
  · simp [analyzerFrom]

theorem analyze_file_good (c0 : Nat) (a : CodeAnalyzer) (fp content rid : String)
    (h : goodState c0 a) :
    goodState c0 (analyze_file a fp content rid) ∧
    resolvedTriples (analyze_file a fp content rid) =
      resolvedTriples a ++ fileTriples fp content := by
  by_cases hext : extOf fp = ".py"
  case neg =>
    have hskip : analyze_file a fp content rid = a := by
      simp [analyze_file, hext]
    rw [hskip]
    exact ⟨h, by simp [fileTriples, hext]⟩
  case pos =>
    obtain ⟨hc0, hkeys, hrels⟩ := h
    rw [analyze_file_eq a fp content rid hext]
    set c := a.node_counter with hc_def
    set mid := nodeIdStr (c + 1) with hmid_def
    set mname := pyReplaceDel (pyBasename fp) ".py" with hmname_def
    set lines := pySplitlines content with hlines_def
    set R := defsPass fp mid lines 0 (c + 1) with hR_def
    set mnode : CCGNode := ⟨"module", mname, fp, 1⟩ with hmnode_def
    have h1 : R.2.2.2 = (c + 1) + R.2.2.1.length := defsPass_counter fp mid lines 0 (c + 1)
    have h2 : R.1.map Prod.fst = idsFrom (c + 1) R.2.2.1.length :=
      defsPass_node_keys fp mid lines 0 (c + 1)
    have h3 : R.2.2.1.map DefEntry.id = idsFrom (c + 1) R.2.2.1.length :=
      defsPass_def_ids fp mid lines 0 (c + 1)
    have h4 : R.2.1 = R.2.2.1.map (fun d => CCGRelationship.mk mid d.id "contains") :=
      defsPass_contains fp mid lines 0 (c + 1)
    have h5 : List.Forall₂ (NodeDefRel fp) R.1 R.2.2.1 :=
      defsPass_nodes_rel fp mid lines 0 (c + 1)
    have h6 : R.2.2.1.map (fun d => (d.name, d.start_line)) = nameDefs lines 0 :=
      defsPass_name_proj fp mid lines 0 (c + 1)
    have hkeysnew : ((mid, mnode) :: R.1).map Prod.fst =
        idsFrom c (R.2.2.1.length + 1) := by
      simp [idsFrom, h2, hmid_def]
    have hold_mem : ∀ k ∈ a.ccg_nodes.map Prod.fst,
        ∃ m, c0 < m ∧ m ≤ c ∧ k = nodeIdStr m := by
      intro k hk
      rw [hkeys] at hk
      obtain ⟨m, hm1, hm2, rfl⟩ := mem_idsFrom.mp hk
      exact ⟨m, hm1, by omega, rfl⟩
    have hfresh : ∀ m, c < m → nodeIdStr m ∉ a.ccg_nodes.map Prod.fst := by
      intro m hm hmem
      obtain ⟨m', _, hm2', heq⟩ := hold_mem _ hmem
      have := nodeIdStr_injective heq
      omega
    have hmid_not_old : mid ∉ a.ccg_nodes.map Prod.fst := by
      rw [hmid_def]
      exact hfresh (c + 1) (by omega)
    have hlook_mid : lookupNode (a.ccg_nodes ++ (mid, mnode) :: R.1) mid = some mnode := by
      rw [lookupNode_append_right hmid_not_old, lookupNode_cons, if_pos rfl]
    have hRkeys_nodup : (R.1.map Prod.fst).Nodup := by
      rw [h2]
      exact idsFrom_nodup _ _
    have hdid_mem : ∀ d ∈ R.2.2.1,
        ∃ m, c + 1 < m ∧ m ≤ c + 1 + R.2.2.1.length ∧ d.id = nodeIdStr m := by
      intro d hd
      have hmem : d.id ∈ R.2.2.1.map DefEntry.id := List.mem_map_of_mem _ hd
      rw [h3] at hmem
      exact mem_idsFrom.mp hmem
    have hlook_def : ∀ d ∈ R.2.2.1,
        ∃ nd, lookupNode (a.ccg_nodes ++ (mid, mnode) :: R.1) d.id = some nd ∧
          nd.name = d.name := by
      intro d hd
      obtain ⟨m, hm1, hm2, hdid⟩ := hdid_mem d hd
      obtain ⟨p, hp, hrel⟩ := fa2_mem_right h5 d hd
      obtain ⟨hp1, hp2, _, _, _⟩ := hrel
      refine ⟨p.2, ?_, hp2⟩
      rw [lookupNode_append_right (by rw [hdid]; exact hfresh m (by omega)),
        lookupNode_cons, if_neg ?_]
      · apply lookupNode_of_mem_nodup hRkeys_nodup
        have hpe : (d.id, p.2) = p := by
          rw [← hp1]
        rw [hpe]
        exact hp
      · rw [hmid_def, hdid]
        intro heq
        have := nodeIdStr_injective heq
        omega
    have hdisp_mid : displayName (a.ccg_nodes ++ (mid, mnode) :: R.1) mid = mname := by
      unfold displayName
      rw [hlook_mid]
    have hdisp_def : ∀ d ∈ R.2.2.1,
        displayName (a.ccg_nodes ++ (mid, mnode) :: R.1) d.id = d.name := by
      intro d hd
      obtain ⟨nd, hl, hn⟩ := hlook_def d hd
      unfold displayName
      rw [hl]
      exact hn
    have hlift : ∀ i, (lookupNode a.ccg_nodes i).isSome = true →
        (lookupNode (a.ccg_nodes ++ (mid, mnode) :: R.1) i).isSome = true := by
      intro i hi
      rw [lookupNode_append_left ((lookupNode_isSome_iff _ _).mp hi)]
      exact hi
    have hdisp_old : ∀ i, (lookupNode a.ccg_nodes i).isSome = true →
        displayName (a.ccg_nodes ++ (mid, mnode) :: R.1) i =
          displayName a.ccg_nodes i := by
      intro i hi
      unfold displayName
      rw [lookupNode_append_left ((lookupNode_isSome_iff _ _).mp hi)]
    constructor
    · -- the invariant is preserved
      refine ⟨by simp only []; omega, ?_, ?_⟩
      · show (a.ccg_nodes ++ (mid, mnode) :: R.1).map Prod.fst =
          idsFrom c0 (R.2.2.2 - c0)
        have happ := idsFrom_append c0 (c - c0) (R.2.2.1.length + 1)
        rw [show c0 + (c - c0) = c by omega] at happ
        rw [List.map_append, hkeys, hkeysnew, ← happ]
        congr 1
        omega
      · intro r hr
        rcases List.mem_append.mp hr with hr' | hcalls
        · rcases List.mem_append.mp hr' with hold | hcrs
          · obtain ⟨hs, ht⟩ := hrels r hold
            exact ⟨hlift _ hs, fun hcont => hlift _ (ht hcont)⟩
          · rw [h4] at hcrs
            obtain ⟨d, hd, rfl⟩ := List.mem_map.mp hcrs
            obtain ⟨nd, hl, _⟩ := hlook_def d hd
            constructor
            · show (lookupNode (a.ccg_nodes ++ (mid, mnode) :: R.1) mid).isSome = true
              rw [hlook_mid]
              rfl
            · intro _
              show (lookupNode (a.ccg_nodes ++ (mid, mnode) :: R.1) d.id).isSome = true
              rw [hl]
              rfl
        · obtain ⟨hty, ln, hsrc, _, _⟩ := callsPass_mem mid mname R.2.2.1 lines 0 r hcalls
          constructor
          · rw [hsrc]
            rcases findOwner_cases mid mname R.2.2.1 ln with hcase | ⟨d, hd, hcase⟩
            · rw [hcase]
              show (lookupNode (a.ccg_nodes ++ (mid, mnode) :: R.1) mid).isSome = true
              rw [hlook_mid]
              rfl
            · rw [hcase]
              obtain ⟨nd, hl, _⟩ := hlook_def d hd
              show (lookupNode (a.ccg_nodes ++ (mid, mnode) :: R.1) d.id).isSome = true
              rw [hl]
              rfl
          · intro hcont
            rw [hty] at hcont
            exact absurd hcont (by decide)
    · -- the by-name triples extend by exactly this file's triples
      show ((a.ccg_relationships ++ R.2.1) ++
          callsPass mid mname R.2.2.1 lines 0).map _ = _
      rw [List.map_append, List.map_append]
      have hA : a.ccg_relationships.map
          (fun r => (displayName (a.ccg_nodes ++ (mid, mnode) :: R.1) r.source_id,
            if r.rel_type = "contains" then
              displayName (a.ccg_nodes ++ (mid, mnode) :: R.1) r.target_id
            else r.target_id, r.rel_type)) = resolvedTriples a := by
        apply List.map_congr_left
        intro r hr
        obtain ⟨hs, ht⟩ := hrels r hr
        by_cases hcont : r.rel_type = "contains"
        · simp [hcont, hdisp_old _ hs, hdisp_old _ (ht hcont)]
        · simp [hcont, hdisp_old _ hs]
      have hB : (R.2.1.map
          (fun r => (displayName (a.ccg_nodes ++ (mid, mnode) :: R.1) r.source_id,
            if r.rel_type = "contains" then
              displayName (a.ccg_nodes ++ (mid, mnode) :: R.1) r.target_id
            else r.target_id, r.rel_type))) =
          (nameDefs lines 0).map (fun d => (mname, d.1, "contains")) := by
        rw [h4, List.map_map, ← h6, List.map_map]
        apply List.map_congr_left
        intro d hd
        simp [Function.comp, hdisp_mid, hdisp_def d hd]
      have hC := callsPass_resolved (a.ccg_nodes ++ (mid, mnode) :: R.1) mid mname
        R.2.2.1 (nameDefs lines 0) h6 hdisp_mid hdisp_def lines 0
      rw [hA, hB, hC]
      have hfile : fileTriples fp content =
          (nameDefs lines 0).map (fun d => (mname, d.1, "contains")) ++
          (nameCalls mname (nameDefs lines 0) lines 0).map
            (fun p => (p.1, p.2, ("calls" : String))) := by
        simp [fileTriples, hext, hmname_def, hlines_def]
      rw [hfile, List.append_assoc]

theorem buildFold_good (c0 : Nat) :
    ∀ (inputs : List (String × String)) (a : CodeAnalyzer), goodState c0 a →
      goodState c0 (inputs.foldl (fun a pt => analyze_file a pt.1 pt.2 "repo") a) ∧
      resolvedTriples (inputs.foldl (fun a pt => analyze_file a pt.1 pt.2 "repo") a) =
        resolvedTriples a ++
          (inputs.map (fun pt => fileTriples pt.1 pt.2)).flatten := by
  intro inputs
  induction inputs with
  | nil =>
    intro a ha
    exact ⟨ha, by simp⟩
  | cons pt rest ih =>
    intro a ha
    obtain ⟨hg, he⟩ := analyze_file_good c0 a pt.1 pt.2 "repo" ha
    obtain ⟨hg', he'⟩ := ih _ hg
    refine ⟨hg', ?_⟩
    rw [List.foldl_cons, he', he, List.map_cons, List.flatten_cons,
      List.append_assoc]

/-! Claim theorems. -/

/-- C2: on a fresh analyzer, `analyze_file` applied to `sample.py` with the
six-line example text produces exactly the module node `sample`, the
function `func_a` at line 1, the class `MyClass` at line 4 and the function
`method_b` at line 5; `contains` edges from the module node to each of the
three definitions; exactly one reference edge, from `method_b` (node `N4`)
with target name `func_a`; and `query_ccg "func_a"` (the spec's
`who_references`) returns exactly the triple `("method_b", "func_a", ·)`
carrying the reference kind, which the code spells `"calls"` (the spec
calls it `references`). -/
theorem sample_end_to_end :
    (analyze_file initAnalyzer "sample.py"
        "def func_a(x):\n    return x + 1\n\nclass MyClass:\n    def method_b(self, y):\n        return func_a(y)"
        "repo").ccg_nodes =
      [("N1", ⟨"module", "sample", "sample.py", 1⟩),
       ("N2", ⟨"function", "func_a", "sample.py", 1⟩),
       ("N3", ⟨"class", "MyClass", "sample.py", 4⟩),
       ("N4", ⟨"function", "method_b", "sample.py", 5⟩)] ∧
    (analyze_file initAnalyzer "sample.py"
        "def func_a(x):\n    return x + 1\n\nclass MyClass:\n    def method_b(self, y):\n        return func_a(y)"
        "repo").ccg_relationships =
      [⟨"N1", "N2", "contains"⟩, ⟨"N1", "N3", "contains"⟩,
       ⟨"N1", "N4", "contains"⟩, ⟨"N4", "func_a", "calls"⟩] ∧
    query_ccg (analyze_file initAnalyzer "sample.py"
        "def func_a(x):\n    return x + 1\n\nclass MyClass:\n    def method_b(self, y):\n        return func_a(y)"
        "repo") "func_a" =
      [⟨"method_b", "func_a", "calls"⟩] := by
  refine ⟨by decide, by decide, by decide⟩

/-- C3: on a definitions list ordered ascending by start line, the
containment lookup returns the last definition whose `start_line` is at
most the queried line, and the module when no definition starts at or
before it. -/
theorem findOwner_spec (mid mname : String) (ds : List DefEntry) (ln : Nat)
    (hsorted : List.Pairwise (fun d e => d.start_line ≤ e.start_line) ds) :
    findOwner mid mname ds ln =
      match (ds.filter (fun d => decide (d.start_line ≤ ln))).getLast? with
      | some d => (d.id, d.name)
      | none => (mid, mname) := by
  unfold findOwner
  rw [find?_reverse_eq_getLast?_filter]

/-- C3 witness: start lines [3, 10, 25]; line 15 resolves to the definition
starting at 10, line 2 to the module. -/
theorem findOwner_spec_witness :
    findOwner "N1" "mod" [⟨"N2", "a", 3⟩, ⟨"N3", "b", 10⟩, ⟨"N4", "c", 25⟩] 15 =
      ("N3", "b") ∧
    findOwner "N1" "mod" [⟨"N2", "a", 3⟩, ⟨"N3", "b", 10⟩, ⟨"N4", "c", 25⟩] 2 =
      ("N1", "mod") := by
  constructor
  · rw [findOwner_spec "N1" "mod" _ 15 (by decide)]
    decide
  · rw [findOwner_spec "N1" "mod" _ 2 (by decide)]
    decide

/-- C7: ids issued by successive `get_next_node_id` calls are the strings
of the successive counter values `c+1, c+2, ...` (so the numeric part is
strictly increasing over the session) and are pairwise distinct. -/
theorem get_next_node_id_spec (c k : Nat) :
    (issueIds c k).1 = (List.range k).map (fun i => nodeIdStr (c + i + 1)) ∧
    (issueIds c k).1.Nodup := by
  have hbridge : ∀ (k c : Nat), (issueIds c k).1 = idsFrom c k := by
    intro k
    induction k with
    | zero => intro c; rfl
    | succ k ih => intro c; simp [issueIds, get_next_node_id, idsFrom, ih]
  have hrange : ∀ (k c : Nat),
      idsFrom c k = (List.range k).map (fun i => nodeIdStr (c + i + 1)) := by
    intro k
    induction k with
    | zero => intro c; simp [idsFrom]
    | succ k ih =>
      intro c
      rw [idsFrom, List.range_succ_eq_map, List.map_cons, List.map_map, ih (c + 1)]
      refine congrArg₂ _ (by simp) ?_
      apply List.map_congr_left
      intro i _
      simp [Function.comp]
      congr 1
      omega
  refine ⟨(hbridge k c).trans (hrange k c), ?_⟩
  rw [hbridge k c]
  exact idsFrom_nodup c k

/-- C8: a file whose extension has no registered scanner (the registry
holds only `.py`) leaves the analyzer state completely unchanged: no node,
no relationship, no counter advance. -/
theorem analyze_file_unsupported (a : CodeAnalyzer) (fp content rid : String)
    (h : extOf fp ≠ ".py") : analyze_file a fp content rid = a := by
  simp [analyze_file, h]

/-- C8 witness: a `.txt` file with a definition line is skipped. -/
theorem analyze_file_unsupported_witness :
    analyze_file initAnalyzer "a.txt" "def f(x):" "r" = initAnalyzer :=
  analyze_file_unsupported initAnalyzer "a.txt" "def f(x):" "r" (by decide)

/-- C9: the by-name relationship triples of a built graph do not depend on
the identifier counter the session starts from; in particular two runs of
the builder over the same `(path, text)` sequence from a reset analyzer
(`c1 = c2 = 0`) produce identical `(source name, target name, kind)` triple
sequences, even though raw ids are counter-dependent. -/
theorem buildGraph_idempotent (c1 c2 : Nat) (inputs : List (String × String)) :
    resolvedTriples (buildGraphFrom c1 inputs) =
      resolvedTriples (buildGraphFrom c2 inputs) := by
  have h1 := (buildFold_good c1 inputs (analyzerFrom c1) (goodState_init c1)).2
  have h2 := (buildFold_good c2 inputs (analyzerFrom c2) (goodState_init c2)).2
  have he : ∀ c : Nat, resolvedTriples (analyzerFrom c) = [] := by
    intro c
    simp [resolvedTriples, analyzerFrom]
  unfold buildGraphFrom
  rw [h1, h2, he c1, he c2]

/-- C10: after any sequence of `analyze_file` calls from a fresh analyzer,
every relationship's source id is a key of the node dict, and every
`contains` relationship's target id as well; hence the source resolution
in `query_ccg` always succeeds. -/
theorem buildGraph_endpoints_resolvable (inputs : List (String × String))
    (r : CCGRelationship) (hr : r ∈ (buildGraph inputs).ccg_relationships) :
    (lookupNode (buildGraph inputs).ccg_nodes r.source_id).isSome = true ∧
    (r.rel_type = "contains" →
      (lookupNode (buildGraph inputs).ccg_nodes r.target_id).isSome = true) := by
  have h := (buildFold_good 0 inputs (analyzerFrom 0) (goodState_init 0)).1
  exact h.2.2 r hr

/-- C10 witness: in the graph of one two-line file, the `contains` edge
`N1 -> N2` has both endpoints in the node dict. -/
theorem buildGraph_endpoints_resolvable_witness :
    (lookupNode (buildGraph [("s.py", "def f(x):\n  y = g(x)")]).ccg_nodes
      "N1").isSome = true ∧
    (("contains" : String) = "contains" →
      (lookupNode (buildGraph [("s.py", "def f(x):\n  y = g(x)")]).ccg_nodes
        "N2").isSome = true) :=
  buildGraph_endpoints_resolvable [("s.py", "def f(x):\n  y = g(x)")]
    ⟨"N1", "N2", "contains"⟩ (by decide)

/-- C1: on a supported `.py` file whose text has exactly `N` definition
lines, one `analyze_file` call appends exactly `N + 1` nodes — the module
node followed by one node per definition — and its appended `contains`
relationships are exactly one per definition node, each with the module
node as source and that definition node as target; every other appended
relationship has the reference kind. For `N = 0` this specialises to:
only the module node and no `contains` relationship. -/
theorem analyze_file_counts (a : CodeAnalyzer) (fp content rid : String)
    (h : extOf fp = ".py") :
    ∃ (mnode : CCGNode) (defNodes : List (String × CCGNode))
      (callRels : List CCGRelationship),
      (analyze_file a fp content rid).ccg_nodes =
        a.ccg_nodes ++ (nodeIdStr (a.node_counter + 1), mnode) :: defNodes ∧
      mnode.node_type = "module" ∧
      defNodes.length =
        ((pySplitlines content).filter (fun l => (defMatch l).isSome)).length ∧
      (∀ p ∈ defNodes, p.2.node_type = "class" ∨ p.2.node_type = "function") ∧
      (analyze_file a fp content rid).ccg_relationships =
        a.ccg_relationships ++
          defNodes.map (fun p =>
            CCGRelationship.mk (nodeIdStr (a.node_counter + 1)) p.1 "contains") ++
          callRels ∧
      (∀ r ∈ callRels, r.rel_type = "calls") ∧
      (analyze_file a fp content rid).ccg_nodes.length =
        a.ccg_nodes.length +
          (((pySplitlines content).filter (fun l => (defMatch l).isSome)).length
            + 1) := by
  rw [analyze_file_eq a fp content rid h]
  set mid := nodeIdStr (a.node_counter + 1) with hmid_def
  set lines := pySplitlines content with hlines_def
  set R := defsPass fp mid lines 0 (a.node_counter + 1) with hR_def
  have h4 := defsPass_contains fp mid lines 0 (a.node_counter + 1)
  have h5 := defsPass_nodes_rel fp mid lines 0 (a.node_counter + 1)
  have h7 := defsPass_length fp mid lines 0 (a.node_counter + 1)
  have hlen : R.1.length = R.2.2.1.length := h5.length_eq
  refine ⟨⟨"module", pyReplaceDel (pyBasename fp) ".py", fp, 1⟩, R.1,
    callsPass mid (pyReplaceDel (pyBasename fp) ".py") R.2.2.1 lines 0,
    rfl, rfl, ?_, ?_, ?_, ?_, ?_⟩
  · rw [hlen, h7]
  · intro p hp
    obtain ⟨d, _, hrel⟩ := fa2_mem_left h5 p hp
    exact hrel.2.2.2.2
  · have hcr : R.2.1 = R.1.map (fun p => CCGRelationship.mk mid p.1 "contains") :=
      h4.trans (fa2_map_eq h5 (fun p d hrel => by rw [hrel.1])).symm
    rw [hcr]
  · intro r hr
    exact (callsPass_mem mid _ R.2.2.1 lines 0 r hr).1
  · simp only [List.length_append, List.length_cons]
    rw [hlen, h7]

/-- C1 witness: a two-line file with one definition line adds 1 + 1 nodes. -/
theorem analyze_file_counts_witness :
    (analyze_file initAnalyzer "w.py" "def f(x):\nx = 1" "r").ccg_nodes.length =
      initAnalyzer.ccg_nodes.length +
        (((pySplitlines "def f(x):\nx = 1").filter
          (fun l => (defMatch l).isSome)).length + 1) := by
  obtain ⟨mnode, defNodes, callRels, _, _, _, _, _, _, htotal⟩ :=
    analyze_file_counts initAnalyzer "w.py" "def f(x):\nx = 1" "r" (by decide)
  exact htotal

theorem query_filterMap_eq (nodes : List (String × CCGNode)) (q : String) :
    ∀ rels : List CCGRelationship,
      (∀ r ∈ rels, matchesQuery q r = true →
        (lookupNode nodes r.source_id).isSome = true) →
      rels.filterMap (queryStep nodes (pyLower (pyStrip q))) =
      (rels.filter (matchesQuery q)).map
        (fun r => CCGRelationship.mk (displayName nodes r.source_id)
          r.target_id r.rel_type) := by
  intro rels
  induction rels with
  | nil => intro _; rfl
  | cons r rs ih =>
    intro hres
    have htail := ih (fun x hx => hres x (List.mem_cons_of_mem _ hx))
    by_cases hm : matchesQuery q r = true
    · have hs := hres r (List.mem_cons_self _ _) hm
      obtain ⟨n, hn⟩ := Option.isSome_iff_exists.mp hs
      have hcond : (r.rel_type == "calls" &&
          pyLower r.target_id == pyLower (pyStrip q)) = true := hm
      have hfr : queryStep nodes (pyLower (pyStrip q)) r =
          some (CCGRelationship.mk n.name r.target_id r.rel_type) := by
        unfold queryStep
        simp only [hcond, if_true, hn]
      have hdisp : displayName nodes r.source_id = n.name := by
        unfold displayName
        rw [hn]
      rw [List.filterMap_cons_some hfr, List.filter_cons_of_pos hm,
        List.map_cons, htail, hdisp]
    · have hcond : (r.rel_type == "calls" &&
          pyLower r.target_id == pyLower (pyStrip q)) = false := by
        simpa [matchesQuery] using hm
      have hfr : queryStep nodes (pyLower (pyStrip q)) r = none := by
        unfold queryStep
        simp [hcond]
      rw [List.filterMap_cons_none hfr,
        List.filter_cons_of_neg (by simpa using hm)]
      exact htail

/-- C4: whenever every matching relationship's source id resolves in the
node dict (true of all reachable states), `query_ccg` returns exactly the
`calls` relationships whose target equals the stripped query under
case-insensitive comparison, in append order, with source ids replaced by
the source node's name; and an empty list (not an error) when nothing
matches. -/
theorem query_ccg_spec (a : CodeAnalyzer) (q : String)
    (hres : ∀ r ∈ a.ccg_relationships, matchesQuery q r = true →
      (lookupNode a.ccg_nodes r.source_id).isSome = true) :
    query_ccg a q =
      (a.ccg_relationships.filter (matchesQuery q)).map
        (fun r => CCGRelationship.mk (displayName a.ccg_nodes r.source_id)
          r.target_id r.rel_type) ∧
    ((∀ r ∈ a.ccg_relationships, matchesQuery q r = false) →
      query_ccg a q = []) := by
  have hmain := query_filterMap_eq a.ccg_nodes q a.ccg_relationships hres
  refine ⟨hmain, fun hall => ?_⟩
  rw [show query_ccg a q = _ from hmain]
  have hnil : a.ccg_relationships.filter (matchesQuery q) = [] := by
    apply List.filter_eq_nil_iff.mpr
    intro x hx
    simp [hall x hx]
  rw [hnil]
  rfl

/-- C4 witness: one matching relationship, queried with surrounding
whitespace and different case. -/
theorem query_ccg_spec_witness :
    query_ccg ⟨[("N1", ⟨"function", "foo", "f.py", 1⟩)],
      [⟨"N1", "bar", "calls"⟩], 1⟩ " BAR " = [⟨"foo", "bar", "calls"⟩] := by
  have h := (query_ccg_spec ⟨[("N1", ⟨"function", "foo", "f.py", 1⟩)],
    [⟨"N1", "bar", "calls"⟩], 1⟩ " BAR " (by decide)).1
  rw [h]
  decide

/-- C5: every reference relationship appended by one `analyze_file` call
has a target that is not on the stop list and differs from the name of its
source node — the definition (or module) that encloses the line the
reference was found on. The freshness hypothesis (no stored key equals a
not-yet-issued id) holds in every reachable state. -/
theorem analyze_file_no_self_reference (a : CodeAnalyzer)
    (fp content rid : String)
    (hfresh : ∀ p ∈ a.ccg_nodes, ∀ m, a.node_counter < m → p.1 ≠ nodeIdStr m) :
    ∀ r ∈ (analyze_file a fp content rid).ccg_relationships.drop
        a.ccg_relationships.length,
      r.rel_type = "calls" →
        keywordStop.contains r.target_id = false ∧
        ∀ nd, lookupNode (analyze_file a fp content rid).ccg_nodes r.source_id =
            some nd → r.target_id ≠ nd.name := by
  by_cases hext : extOf fp = ".py"
  case neg =>
    intro r hr
    have hskip : analyze_file a fp content rid = a := by
      simp [analyze_file, hext]
    rw [hskip, List.drop_length] at hr
    simp at hr
  case pos =>
    rw [analyze_file_eq a fp content rid hext]
    set c := a.node_counter with hc_def
    set mid := nodeIdStr (c + 1) with hmid_def
    set mname := pyReplaceDel (pyBasename fp) ".py" with hmname_def
    set lines := pySplitlines content with hlines_def
    set R := defsPass fp mid lines 0 (c + 1) with hR_def
    set mnode : CCGNode := ⟨"module", mname, fp, 1⟩ with hmnode_def
    have h2 := defsPass_node_keys fp mid lines 0 (c + 1)
    have h3 := defsPass_def_ids fp mid lines 0 (c + 1)
    have h4 := defsPass_contains fp mid lines 0 (c + 1)
    have h5 := defsPass_nodes_rel fp mid lines 0 (c + 1)
    have hnot_old : ∀ m, c < m → nodeIdStr m ∉ a.ccg_nodes.map Prod.fst := by
      intro m hm hmem
      obtain ⟨p, hp, hpe⟩ := List.mem_map.mp hmem
      exact hfresh p hp m hm hpe
    have hmid_not_old : mid ∉ a.ccg_nodes.map Prod.fst := by
      rw [hmid_def]
      exact hnot_old (c + 1) (by omega)
    have hlook_mid :
        lookupNode (a.ccg_nodes ++ (mid, mnode) :: R.1) mid = some mnode := by
      rw [lookupNode_append_right hmid_not_old, lookupNode_cons, if_pos rfl]
    have hRkeys_nodup : (R.1.map Prod.fst).Nodup := by
      rw [h2]
      exact idsFrom_nodup _ _
    have hdid_mem : ∀ d ∈ R.2.2.1,
        ∃ m, c + 1 < m ∧ m ≤ c + 1 + R.2.2.1.length ∧ d.id = nodeIdStr m := by
      intro d hd
      have hmem : d.id ∈ R.2.2.1.map DefEntry.id := List.mem_map_of_mem _ hd
      rw [h3] at hmem
      exact mem_idsFrom.mp hmem
    have hlook_def : ∀ d ∈ R.2.2.1,
        ∃ nd, lookupNode (a.ccg_nodes ++ (mid, mnode) :: R.1) d.id = some nd ∧
          nd.name = d.name := by
      intro d hd
      obtain ⟨m, hm1, hm2, hdid⟩ := hdid_mem d hd
      obtain ⟨p, hp, hrel⟩ := fa2_mem_right h5 d hd
      obtain ⟨hp1, hp2, _, _, _⟩ := hrel
      refine ⟨p.2, ?_, hp2⟩
      rw [lookupNode_append_right (by rw [hdid]; exact hnot_old m (by omega)),
        lookupNode_cons, if_neg ?_]
      · apply lookupNode_of_mem_nodup hRkeys_nodup
        have hpe : (d.id, p.2) = p := by
          rw [← hp1]
        rw [hpe]
        exact hp
      · rw [hmid_def, hdid]
        intro heq
        have := nodeIdStr_injective heq
        omega
    intro r hr hty
    rw [List.append_assoc, List.drop_left] at hr
    rcases List.mem_append.mp hr with hcrs | hcalls
    · rw [h4] at hcrs
      obtain ⟨d, hd, rfl⟩ := List.mem_map.mp hcrs
      have hbad : ("contains" : String) = "calls" := hty
      exact absurd hbad (by decide)
    · obtain ⟨_, ln, hsrc, hne, hstop⟩ :=
        callsPass_mem mid mname R.2.2.1 lines 0 r hcalls
      refine ⟨hstop, ?_⟩
      intro nd hnd
      rw [hsrc] at hnd
      rcases findOwner_cases mid mname R.2.2.1 ln with hcase | ⟨d, hd, hcase⟩
      · rw [hcase] at hnd hne
        rw [hlook_mid] at hnd
        obtain rfl : mnode = nd := Option.some_inj.mp hnd
        simpa [hmnode_def] using hne
      · rw [hcase] at hnd hne
        obtain ⟨nd', hl, hname⟩ := hlook_def d hd
        rw [hl] at hnd
        obtain rfl : nd' = nd := Option.some_inj.mp hnd
        rw [hname]
        simpa using hne

/-- C5 witness: in `def f(x):` followed by `  y = g(x)`, the reference to
`g` is attributed to `f`, is not a stop-list token, and is not `f`. -/
theorem analyze_file_no_self_reference_witness :
    keywordStop.contains "g" = false ∧ ("g" : String) ≠ "f" := by
  have h := analyze_file_no_self_reference initAnalyzer "s.py"
    "def f(x):\n  y = g(x)" "r"
    (by intro p hp; simp [initAnalyzer] at hp)
    ⟨"N2", "g", "calls"⟩ (by decide) rfl
  exact ⟨h.1, h.2 ⟨"function", "f", "s.py", 1⟩ (by decide)⟩

/-- C6 counterexample: for the supported path `a.py.py` (basename
`a.py.py`, extension `.py`) the module node is named `a` — every
occurrence of `.py` is removed by `str.replace` — whereas stripping only
the trailing extension would give `a.py`. -/
theorem module_name_counterexample :
    (analyze_file initAnalyzer "a.py.py" "" "r").ccg_nodes =
      [("N1", ⟨"module", "a", "a.py.py", 1⟩)] ∧
    pyBasename "a.py.py" = "a.py.py" ∧ extOf "a.py.py" = ".py" ∧
    ("a" : String) ≠ "a.py" := by
  exact ⟨by decide, by decide, by decide, by decide⟩

/-- C6 amended: on every supported path, `analyze_file` appends exactly one
module node — first, with id from the counter — whose name is the file's
base name with *every occurrence* of the extension substring removed
(Python `str.replace`), regardless of whether any definitions follow; all
other appended nodes are definition nodes, never module nodes. -/
theorem analyze_file_module_node (a : CodeAnalyzer) (fp content rid : String)
    (h : extOf fp = ".py") :
    (analyze_file a fp content rid).ccg_nodes.drop a.ccg_nodes.length =
      (nodeIdStr (a.node_counter + 1),
        ⟨"module", pyReplaceDel (pyBasename fp) (extOf fp), fp, 1⟩) ::
        (analyze_file a fp content rid).ccg_nodes.drop
          (a.ccg_nodes.length + 1) ∧
    ∀ p ∈ (analyze_file a fp content rid).ccg_nodes.drop
        (a.ccg_nodes.length + 1),
      p.2.node_type ≠ "module" := by
  rw [analyze_file_eq a fp content rid h, h]
  set mid := nodeIdStr (a.node_counter + 1) with hmid_def
  set lines := pySplitlines content with hlines_def
  set R := defsPass fp mid lines 0 (a.node_counter + 1) with hR_def
  set mnode : CCGNode := ⟨"module", pyReplaceDel (pyBasename fp) ".py", fp, 1⟩
    with hmnode_def
  have h5 := defsPass_nodes_rel fp mid lines 0 (a.node_counter + 1)
  have hdrop1 : (a.ccg_nodes ++ (mid, mnode) :: R.1).drop a.ccg_nodes.length =
      (mid, mnode) :: R.1 := List.drop_left _ _
  have hdrop2 : (a.ccg_nodes ++ (mid, mnode) :: R.1).drop
      (a.ccg_nodes.length + 1) = R.1 := by
    rw [← List.drop_drop, List.drop_left]
    rfl
  refine ⟨by rw [hdrop1, hdrop2], ?_⟩
  intro p hp
  rw [hdrop2] at hp
  obtain ⟨d, _, hrel⟩ := fa2_mem_left h5 p hp
  rcases hrel.2.2.2.2 with ht | ht <;> rw [ht] <;> decide

/-- C6 amended witness: on `a.py.py` with empty content the single appended
node is the module node named by replace-all. -/
theorem analyze_file_module_node_witness :
    (analyze_file initAnalyzer "a.py.py" "" "r").ccg_nodes.drop
        initAnalyzer.ccg_nodes.length =
      (nodeIdStr (initAnalyzer.node_counter + 1),
        ⟨"module", pyReplaceDel (pyBasename "a.py.py") (extOf "a.py.py"),
         "a.py.py", 1⟩) ::
        (analyze_file initAnalyzer "a.py.py" "" "r").ccg_nodes.drop
          (initAnalyzer.ccg_nodes.length + 1) :=
  (analyze_file_module_node initAnalyzer "a.py.py" "" "r" (by decide)).1

end CCG
